import Mathlib

set_option maxRecDepth 8192

/-!
Verification development for the EPUB reader core (`Final.py`):
pagination of chapters into fixed-budget logical pages, character-budget
derivation from font size, content extraction (blocks, chapter titles,
image-reference resolution) and the page-cache lookup path.

Python strings used as resource paths are modelled as `List Char` so that
the path-normalisation steps (`split("#")[0]`, `lstrip("./")`,
`replace("../", "")`, `os.path.basename`) can be reasoned about
structurally; block text is modelled as `String`.
-/

namespace Reader

/-- One renderable unit of a chapter, mirroring the Python dicts
`{"type": "text", "text": ...}` and `{"type": "image", "data": ..., "alt": ...}`.
The image payload (base64 of the resource bytes in the source) is carried
as an abstract `String`; the base64 step is a fixed injective re-encoding
that no claim touches, so the resource content stands for it. -/
inductive Block where
  | text (t : String)
  | image (data : String) (alt : String)
deriving DecidableEq, Repr

/-- One extracted chapter: `{"title": ..., "blocks": [...]}` in the source. -/
structure Chapter where
  title : String
  blocks : List Block
deriving DecidableEq, Repr

/-- Dataclass `ChapterPage` of `Final.py`. -/
structure ChapterPage where
  chapter_index : Nat
  chapter_title : String
  page_in_chapter : Nat
  blocks : List Block
deriving DecidableEq, Repr

/-- Dataclass `Settings`; only `font_size` feeds pagination, the remaining
fields (theme, font family, line height, margins, bold) are presentation
state never read by the core and are omitted. -/
structure Settings where
  font_size : Int
deriving DecidableEq, Repr

/-- `chars_per_page` of `Final.py`:
`base = 3200; return max(800, int(base * 18 / max(10, font_size)))`.
The Python expression divides in binary64 and truncates toward zero; both
operands are nonnegative, the quotient is at most 5760, and whenever the
exact quotient is not an integer it is at least `1 / max(10, font_size)`
away from one, far above the rounding error of a correctly rounded
division of exactly representable operands, so the truncation coincides
with mathematical floor, i.e. with `Nat` division. -/
def chars_per_page (font_size : Int) : Nat :=
  max 800 (3200 * 18 / (max 10 font_size).toNat)

/-- Round-to-nearest, ties-to-even, of the rational `n / d` (for `d > 0`). -/
def roundHalfEven (n d : Nat) : Nat :=
  let q := n / d
  let r := n % d
  if 2 * r < d then q
  else if 2 * r > d then q + 1
  else if q % 2 = 0 then q else q + 1

/-- The 53-bit significand of the IEEE-754 binary64 value nearest to 0.35:
`0.35` rounds to `3152519739159347 / 2 ^ 53` (slightly below 7/20). -/
def mantissa35 : Nat := 3152519739159347

/-- Floor of the base-2 logarithm (0 at 0 and 1), by structural recursion
on a fuel argument: halving reaches 1 well before `fuel = n` runs out. -/
def log2Aux : Nat → Nat → Nat
  | 0, _ => 0
  | fuel + 1, n => if n ≤ 1 then 0 else log2Aux fuel (n / 2) + 1

/-- `natLog2 n` is the floor of the base-2 logarithm of `n` for `n ≥ 1`. -/
def natLog2 (n : Nat) : Nat := log2Aux n n

/-- Exact value of the Python expression `int(l * 0.35)` for a nonnegative
int `l` below `2 ^ 53` (so `float(l)` is exact): the exact rational
`l * mantissa35 / 2 ^ 53` is rounded to the nearest binary64
(53 significant bits, ties to even) and the result truncated toward zero.
`b` is the floor of the base-2 logarithm of the numerator, so the product
has exponent `b - 53` and its significand is the numerator scaled to
`[2 ^ 52, 2 ^ 53)`. -/
def intMul35 (l : Nat) : Nat :=
  if l = 0 then 0
  else
    let n := l * mantissa35
    let b := natLog2 n
    let m := if b ≤ 52 then n * 2 ^ (52 - b) else roundHalfEven n (2 ^ (b - 52))
    if 105 ≤ b then m * 2 ^ (b - 105) else m / 2 ^ (105 - b)

/-- Cost charged against the page budget for one block, as in the packing
loop of `paginate_book`: a text block costs `len(blk["text"])`, an image
block costs `int(limit * 0.35)`. -/
def blockCost (limit : Nat) : Block → Nat
  | .text t => t.length
  | .image _ _ => intMul35 limit

/-- The per-chapter packing loop of `paginate_book`, with the loop state
(`current_blocks`, `current_chars`, `page_in_chapter`) passed explicitly;
the trailing `flush_page()` is the base case. `flush_page` only emits when
the buffer is non-empty, appends the page, bumps `page_in_chapter` and
clears the buffer and running cost. -/
def packBlocks (limit ci : Nat) (title : String) :
    List Block → List Block → Nat → Nat → List ChapterPage
  | [], cur, _, pic =>
      if cur = [] then [] else [⟨ci, title, pic, cur⟩]
  | b :: bs, cur, chars, pic =>
      let cost := blockCost limit b
      if cur ≠ [] ∧ chars + cost > limit then
        ⟨ci, title, pic, cur⟩ :: packBlocks limit ci title bs [b] cost (pic + 1)
      else
        packBlocks limit ci title bs (cur ++ [b]) (chars + cost) pic

/-- The chapter loop of `paginate_book`: `for chap_index, chap in
enumerate(epub_book.chapters)`, running the packing loop per chapter with
a fresh buffer and `page_in_chapter = 1`. -/
def paginateFrom (limit : Nat) : Nat → List Chapter → List ChapterPage
  | _, [] => []
  | i, ch :: rest =>
      packBlocks limit i ch.title ch.blocks [] 0 1 ++ paginateFrom limit (i + 1) rest

/-- The parsed-EPUB state built by `EpubBook._load` that pagination and the
reader consume: title, author, chapters. -/
structure EpubBookModel where
  title : String
  author : String
  chapters : List Chapter
deriving DecidableEq, Repr

/-- `paginate_book(epub_book, settings)` of `Final.py`. -/
def paginate_book (eb : EpubBookModel) (s : Settings) : List ChapterPage :=
  paginateFrom (chars_per_page s.font_size) 0 eb.chapters

/-- A resource path, modelled as its character sequence. -/
abbrev PathStr := List Char

/-- `src.split("#")[0]`: the part of the path before the first `#`. -/
def stripFragment (s : PathStr) : PathStr := s.takeWhile (fun c => c ≠ '#')

/-- `key.lstrip("./")`: Python `lstrip` with a character set removes every
leading character that is `.` or `/` (not just one `./` occurrence). -/
def lstripDotSlash (s : PathStr) : PathStr :=
  s.dropWhile (fun c => c = '.' ∨ c = '/')

/-- `key.replace("../", "")`: remove the leftmost occurrence of `../` and
continue scanning right after the removal point, exactly as Python
`str.replace` with an empty replacement does. -/
def removeDotDotSlash : PathStr → PathStr
  | '.' :: '.' :: '/' :: rest => removeDotDotSlash rest
  | c :: rest => c :: removeDotDotSlash rest
  | [] => []

/-- The whole normalisation applied to an `img` `src` in `EpubBook._load`:
`key = src.split("#")[0]; key = key.lstrip("./").replace("../", "")`. -/
def normalizeSrc (s : PathStr) : PathStr :=
  removeDotDotSlash (lstripDotSlash (stripFragment s))

/-- Python `str.strip()` on block text: drop leading and trailing
whitespace (the text stored in a text block was already stripped by
`get_text(" ", strip=True)` at extraction time). -/
def pyStrip (t : String) : String :=
  ⟨((t.data.dropWhile Char.isWhitespace).reverse.dropWhile
      Char.isWhitespace).reverse⟩

/-- `os.path.basename` on the forward-slash paths used here: everything
after the last `/` (the whole string when there is no `/`). -/
def basename (s : PathStr) : PathStr :=
  (s.reverse.takeWhile (fun c => c ≠ '/')).reverse

/-- The `images` dict of `EpubBook._load`, path → resource content, as an
insertion-ordered association list (Python dicts preserve insertion order;
keys are unique). -/
abbrev ImageMap := List (PathStr × String)

/-- Dict lookup `images[key]` / membership `key in images`. -/
def lookupImage (images : ImageMap) (key : PathStr) : Option String :=
  match images.find? (fun kv => kv.1 == key) with
  | some kv => some kv.2
  | none => none

/-- The fallback search of `EpubBook._load`: when the normalised key is not
a dict key, scan the keys in insertion order and replace `key` with the
first whose basename equals the key's basename; leave it unchanged when
none matches. -/
def resolveKey (images : ImageMap) (key : PathStr) : PathStr :=
  if (lookupImage images key).isSome then key
  else
    match images.find? (fun kv => basename kv.1 == basename key) with
    | some kv => kv.1
    | none => key

/-- One element met while walking `soup.body.descendants`, abstracting the
parsed markup tree to what the extraction loop inspects: a tag name with
the element's extracted text (`get_text` with whitespace stripped), an
`img` with an optional `src` and an `alt`, or anything else (ignored). -/
inductive Elem where
  | tagText (name : String) (text : String)
  | img (src : Option PathStr) (alt : String)
  | other
deriving DecidableEq, Repr

/-- The per-element body of the extraction loop in `EpubBook._load`: a
`p`/`h1`/`h2`/`h3`/`li` element with non-empty text yields a text block; an
`img` yields an image block exactly when its reference resolves in
`images`, and is silently dropped otherwise. -/
def elemBlocks (images : ImageMap) : Elem → List Block
  | .tagText name text =>
      if (name = "p" ∨ name = "h1" ∨ name = "h2" ∨ name = "h3" ∨ name = "li")
          ∧ text ≠ "" then
        [.text text]
      else []
  | .img none _ => []
  | .img (some src) alt =>
      match lookupImage images (resolveKey images (normalizeSrc src)) with
      | some data => [.image data alt]
      | none => []
  | .other => []

/-- All blocks of one content document, in document order. -/
def docBlocks (images : ImageMap) (elems : List Elem) : List Block :=
  elems.flatMap (elemBlocks images)

/-- `soup.find(["h1", "h2", "h3"])` followed by `get_text(strip=True)`:
the text of the first heading element of level 1–3, if any. -/
def headingText : List Elem → Option String
  | [] => none
  | .tagText name t :: rest =>
      if name = "h1" ∨ name = "h2" ∨ name = "h3" then some t else headingText rest
  | _ :: rest => headingText rest

/-- One content document as the extraction loop sees it: `none` when
`soup.body` is absent (the document is skipped), otherwise the sequence of
elements of the body walk. -/
abbrev Doc := Option (List Elem)

/-- The chapter-building loop of `EpubBook._load`: documents in order, a
document without a body is skipped, the chapter title is the first
heading's text or else the book title, and a document with no extracted
blocks yields no chapter. -/
def extractChapters (bookTitle : String) (images : ImageMap)
    (docs : List Doc) : List Chapter :=
  docs.flatMap fun doc =>
    match doc with
    | none => []
    | some elems =>
        let blocks := docBlocks images elems
        if blocks = [] then []
        else [⟨(headingText elems).getD bookTitle, blocks⟩]

/-- `get_epub_metadata` of `Final.py`, with the I/O outcome made explicit:
`meta = none` is the `except`/missing-backend path (`return path.stem, ""`),
otherwise the `DC` title and creator entry lists are examined:
`title = t[0][0] if t else path.stem; author = a[0][0] if a else ""`. -/
def get_epub_metadata (stem : String)
    (meta : Option (List String × List String)) : String × String :=
  match meta with
  | none => (stem, "")
  | some (ts, aus) =>
      (match ts with | [] => stem | t :: _ => t,
       match aus with | [] => "" | a :: _ => a)

/-- The metadata part of `EpubBook._load`: the title is initialised to
`path.stem` and the author to `"Desconocido"`, then each is overwritten by
the first `DC` entry when the entry list is non-empty. -/
def epubLoadMetadata (stem : String) (ts aus : List String) : String × String :=
  (match ts with | [] => stem | t :: _ => t,
   match aus with | [] => "Desconocido" | a :: _ => a)

/-- The fields of the `Book` dataclass that `get_pages_for_book` reads or
writes (favorite/read/tags are untouched there and omitted). -/
structure Book where
  id : Option Int
  title : String
  author : String
  current_page : Int
  total_pages : Int
deriving DecidableEq, Repr

/-- Outcome of `EpubBook(book.file_path)` inside `get_pages_for_book`:
either the constructor raised (`except Exception as exc`) or it produced a
parsed book. -/
inductive LoadOutcome where
  | failure (msg : String)
  | success (eb : EpubBookModel)
deriving Repr

/-- The `pages_cache` dict, book id → pages. -/
abbrev PageCache := List (Int × List ChapterPage)

/-- Dict lookup in `pages_cache`. -/
def cacheLookup (cache : PageCache) (i : Int) : Option (List ChapterPage) :=
  match cache.find? (fun kv => kv.1 == i) with
  | some kv => some kv.2
  | none => none

/-- The single-page fallback built in `get_pages_for_book`:
`ChapterPage(0, book.title or "(Sin título)", 1, [text msg])`. -/
def errorPage (title msg : String) : ChapterPage :=
  ⟨0, if title = "" then "(Sin título)" else title, 1, [.text msg]⟩

/-- The page-building part of `get_pages_for_book`'s compute path: a
missing file gives one error page, a raised `EpubBook` constructor gives
one error page, a successful parse first refreshes an empty title/author
from the parsed metadata and then paginates. Returns the page list and the
(possibly metadata-refreshed) book record. -/
def buildPages (book : Book) (hasFile : Bool) (load : LoadOutcome)
    (s : Settings) : List ChapterPage × Book :=
  if hasFile = false then
    ([errorPage book.title "No se encuentra el archivo del libro."], book)
  else
    match load with
    | .failure msg =>
        ([errorPage book.title ("Error al leer el EPUB:\n" ++ msg)], book)
    | .success eb =>
        (paginate_book eb s,
         { book with
           title := if book.title = "" ∧ eb.title ≠ "" then eb.title
                    else book.title,
           author := if book.author = "" ∧ eb.author ≠ "" then eb.author
                     else book.author })

/-- The compute path of `get_pages_for_book` (reached on a cache miss):
build the pages, store them in the cache under the book id (when the book
has one), set `total_pages = len(pages)` and reset `current_page` to 0
when it is `≥ total_pages`. -/
def computePages (cache : PageCache) (book : Book) (hasFile : Bool)
    (load : LoadOutcome) (s : Settings) :
    List ChapterPage × Book × PageCache :=
  let pages := (buildPages book hasFile load s).1
  let book1 := (buildPages book hasFile load s).2
  let cache1 :=
    match book.id with
    | some i => (i, pages) :: cache
    | none => cache
  let book2 :=
    { book1 with
      total_pages := (pages.length : Int),
      current_page :=
        if book1.current_page ≥ (pages.length : Int) then 0
        else book1.current_page }
  (pages, book2, cache1)

/-- `get_pages_for_book` of `Final.py`, state passed explicitly: the page
cache, the book record, whether `book.file_path` exists (`hasFile`), and
the result of constructing `EpubBook` (only consulted on the compute path
with a present file). On a cache hit it returns the cached pages at once,
touching neither the book record nor the cache; otherwise it runs the
compute path. (The final `update_book_progress` SQL write persists the
record and is external.) -/
def get_pages_for_book (cache : PageCache) (book : Book) (hasFile : Bool)
    (load : LoadOutcome) (s : Settings) :
    List ChapterPage × Book × PageCache :=
  match book.id with
  | some i =>
      match cacheLookup cache i with
      | some ps => (ps, book, cache)
      | none => computePages cache book hasFile load s
  | none => computePages cache book hasFile load s

theorem packBlocks_flatten (limit ci : Nat) (title : String) (bs : List Block) :
    ∀ (cur : List Block) (chars pic : Nat),
    ((packBlocks limit ci title bs cur chars pic).map ChapterPage.blocks).flatten = cur ++ bs := by
  induction bs with
  | nil =>
      intro cur chars pic
      by_cases h : cur = [] <;> simp [packBlocks, h]
  | cons b bs ih =>
      intro cur chars pic
      simp only [packBlocks]
      split
      · simp [ih]
      · simpa using ih (cur ++ [b]) _ _

theorem packBlocks_mem_fields (limit ci : Nat) (title : String) (bs : List Block) :
    ∀ (cur : List Block) (chars pic : Nat) (p : ChapterPage),
    p ∈ packBlocks limit ci title bs cur chars pic →
      p.chapter_index = ci ∧ p.chapter_title = title := by
  induction bs with
  | nil =>
      intro cur chars pic p hp
      by_cases h : cur = [] <;> simp [packBlocks, h] at hp
      subst hp; exact ⟨rfl, rfl⟩
  | cons b bs ih =>
      intro cur chars pic p hp
      simp only [packBlocks] at hp
      split at hp
      · rcases List.mem_cons.mp hp with h | h
        · subst h; exact ⟨rfl, rfl⟩
        · exact ih _ _ _ _ h
      · exact ih _ _ _ _ hp

theorem packBlocks_pageNums (limit ci : Nat) (title : String) (bs : List Block) :
    ∀ (cur : List Block) (chars pic : Nat),
    (packBlocks limit ci title bs cur chars pic).map ChapterPage.page_in_chapter =
      List.range' pic (packBlocks limit ci title bs cur chars pic).length := by
  induction bs with
  | nil =>
      intro cur chars pic
      by_cases h : cur = [] <;> simp [packBlocks, h]
  | cons b bs ih =>
      intro cur chars pic
      simp only [packBlocks]
      split
      · simp [ih, List.range'_succ]
      · exact ih _ _ _

theorem packBlocks_blocks_ne_nil (limit ci : Nat) (title : String) (bs : List Block) :
    ∀ (cur : List Block) (chars pic : Nat) (p : ChapterPage),
    p ∈ packBlocks limit ci title bs cur chars pic → p.blocks ≠ [] := by
  induction bs with
  | nil =>
      intro cur chars pic p hp
      by_cases h : cur = [] <;> simp [packBlocks, h] at hp
      subst hp; exact h
  | cons b bs ih =>
      intro cur chars pic p hp
      simp only [packBlocks] at hp
      split at hp
      · rcases List.mem_cons.mp hp with h | h
        · rename_i hcond; subst h; exact hcond.1
        · exact ih _ _ _ _ h
      · exact ih _ _ _ _ hp

theorem paginateFrom_mem_bounds (limit : Nat) (chs : List Chapter) :
    ∀ (s : Nat) (p : ChapterPage), p ∈ paginateFrom limit s chs →
      s ≤ p.chapter_index ∧ p.chapter_index < s + chs.length := by
  induction chs with
  | nil => intro s p hp; simp [paginateFrom] at hp
  | cons ch rest ih =>
      intro s p hp
      rcases List.mem_append.mp hp with h | h
      · have := (packBlocks_mem_fields limit s ch.title ch.blocks [] 0 1 p h).1
        simp [this]
      · have := ih (s + 1) p h
        constructor <;> [omega; (simp only [List.length_cons]; omega)]

theorem paginateFrom_mem_decomp (limit : Nat) (chs : List Chapter) :
    ∀ (s : Nat) (p : ChapterPage), p ∈ paginateFrom limit s chs →
      ∃ (j : Nat) (hj : j < chs.length),
        p ∈ packBlocks limit (s + j) (chs.get ⟨j, hj⟩).title (chs.get ⟨j, hj⟩).blocks [] 0 1 := by
  induction chs with
  | nil => intro s p hp; simp [paginateFrom] at hp
  | cons ch rest ih =>
      intro s p hp
      rcases List.mem_append.mp hp with h | h
      · exact ⟨0, by simp, by simpa using h⟩
      · obtain ⟨j, hj, hmem⟩ := ih (s + 1) p h
        exact ⟨j + 1, by simpa using Nat.succ_lt_succ hj, by
          have : s + 1 + j = s + (j + 1) := by omega
          rw [this] at hmem; simpa using hmem⟩

theorem paginateFrom_filter (limit : Nat) (chs : List Chapter) :
    ∀ (s i : Nat) (h : i < chs.length),
    (paginateFrom limit s chs).filter (fun p => p.chapter_index == s + i) =
      packBlocks limit (s + i) (chs.get ⟨i, h⟩).title (chs.get ⟨i, h⟩).blocks [] 0 1 := by
  induction chs with
  | nil => intro s i h; simp at h
  | cons ch rest ih =>
      intro s i h
      rw [paginateFrom, List.filter_append]
      cases i with
      | zero =>
          have h1 : (paginateFrom limit (s + 1) rest).filter
              (fun p => p.chapter_index == s + 0) = [] := by
            rw [List.filter_eq_nil_iff]
            intro p hp
            have := (paginateFrom_mem_bounds limit rest (s + 1) p hp).1
            simp only [beq_iff_eq]
            omega
          have h2 : (packBlocks limit s ch.title ch.blocks [] 0 1).filter
              (fun p => p.chapter_index == s + 0) =
              packBlocks limit s ch.title ch.blocks [] 0 1 := by
            rw [List.filter_eq_self]
            intro p hp
            have := (packBlocks_mem_fields limit s ch.title ch.blocks [] 0 1 p hp).1
            simp [this]
          rw [h1, h2]
          simp
      | succ i =>
          have h1 : (packBlocks limit s ch.title ch.blocks [] 0 1).filter
              (fun p => p.chapter_index == s + (i + 1)) = [] := by
            rw [List.filter_eq_nil_iff]
            intro p hp
            have := (packBlocks_mem_fields limit s ch.title ch.blocks [] 0 1 p hp).1
            simp only [beq_iff_eq]
            omega
          have hi : i < rest.length := Nat.lt_of_succ_lt_succ h
          have h2 := ih (s + 1) i hi
          have : s + 1 + i = s + (i + 1) := by omega
          rw [this] at h2
          rw [h1, h2]
          simp

/-- C1: for every chapter and every budget, concatenating the blocks of the
pages `paginate_book` emits for that chapter's `chapter_index`, in emission
(= `page_in_chapter`) order, gives back exactly the chapter's original block
sequence; moreover every block on a page belongs to that page's own chapter,
so no page mixes chapters. -/
theorem pagination_preserves_chapter_blocks (limit : Nat) (chs : List Chapter)
    (i : Nat) (h : i < chs.length) :
    ((((paginateFrom limit 0 chs).filter
        (fun p => p.chapter_index == i)).map ChapterPage.blocks).flatten
      = (chs.get ⟨i, h⟩).blocks) ∧
    (∀ p ∈ paginateFrom limit 0 chs, ∀ b ∈ p.blocks,
      ∃ hi : p.chapter_index < chs.length,
        b ∈ (chs.get ⟨p.chapter_index, hi⟩).blocks) := by
  constructor
  · have hf := paginateFrom_filter limit chs 0 i h
    simp only [Nat.zero_add] at hf
    rw [hf, packBlocks_flatten]
    simp
  · intro p hp b hb
    obtain ⟨j, hj, hmem⟩ := paginateFrom_mem_decomp limit chs 0 p hp
    have hci := (packBlocks_mem_fields limit (0 + j) _ _ _ _ _ p hmem).1
    have hjz : p.chapter_index = j := by omega
    refine ⟨by omega, ?_⟩
    have hjoin := packBlocks_flatten limit (0 + j) (chs.get ⟨j, hj⟩).title
      (chs.get ⟨j, hj⟩).blocks [] 0 1
    have hbmem : b ∈ ((packBlocks limit (0 + j) (chs.get ⟨j, hj⟩).title
        (chs.get ⟨j, hj⟩).blocks [] 0 1).map ChapterPage.blocks).flatten := by
      rw [List.mem_flatten]
      exact ⟨p.blocks, List.mem_map_of_mem ChapterPage.blocks hmem, hb⟩
    rw [hjoin] at hbmem
    simp only [List.nil_append] at hbmem
    simpa [hjz] using hbmem

/-- C4: for every input and budget, the pages emitted for each chapter carry
`page_in_chapter` values forming the contiguous sequence `1..k`, no emitted
page has an empty block list, and a chapter with zero blocks contributes
zero pages. -/
theorem pagination_page_numbering (limit : Nat) (chs : List Chapter)
    (i : Nat) (h : i < chs.length) :
    (((paginateFrom limit 0 chs).filter
        (fun p => p.chapter_index == i)).map ChapterPage.page_in_chapter
      = List.range' 1 ((paginateFrom limit 0 chs).filter
          (fun p => p.chapter_index == i)).length) ∧
    (∀ p ∈ paginateFrom limit 0 chs, p.blocks ≠ []) ∧
    ((chs.get ⟨i, h⟩).blocks = [] →
      (paginateFrom limit 0 chs).filter (fun p => p.chapter_index == i) = []) := by
  have hf := paginateFrom_filter limit chs 0 i h
  simp only [Nat.zero_add] at hf
  refine ⟨?_, ?_, ?_⟩
  · rw [hf]; exact packBlocks_pageNums limit i _ _ _ _ _
  · intro p hp
    obtain ⟨j, hj, hmem⟩ := paginateFrom_mem_decomp limit chs 0 p hp
    exact packBlocks_blocks_ne_nil limit (0 + j) _ _ _ _ _ p hmem
  · intro hempty
    rw [hf, hempty]
    rfl

/-- C1 witness. -/
theorem pagination_preserves_chapter_blocks_witness :
    (((paginateFrom 800 0 [⟨"c", [.text "hello", .image "D" "a"]⟩]).filter
        (fun p => p.chapter_index == 0)).map ChapterPage.blocks).flatten
      = [.text "hello", .image "D" "a"] := by
  have h := pagination_preserves_chapter_blocks 800
    [⟨"c", [.text "hello", .image "D" "a"]⟩] 0 (by decide)
  exact h.1

/-- C4 witness. -/
theorem pagination_page_numbering_witness :
    ((paginateFrom 800 0 [⟨"c", [.text "hello"]⟩, ⟨"d", []⟩]).filter
        (fun p => p.chapter_index == 1)) = [] := by
  have h := pagination_page_numbering 800 [⟨"c", [.text "hello"]⟩, ⟨"d", []⟩]
    1 (by decide)
  exact h.2.2 rfl

/-- C2: greedy flushing: whenever the buffer is non-empty and
`running_cost + block_cost > budget`, the buffer is flushed as a completed
page (current `page_in_chapter`, then buffer and cost reset) before the
current block is appended; and Scenario A: budget 800, one chapter of text
blocks of lengths 500, 400, 100 gives two pages, `[500]` and `[400, 100]`. -/
theorem packer_flushes_greedily :
    (∀ (limit ci : Nat) (title : String) (b : Block) (bs cur : List Block)
        (chars pic : Nat), cur ≠ [] → chars + blockCost limit b > limit →
        packBlocks limit ci title (b :: bs) cur chars pic =
          ⟨ci, title, pic, cur⟩ ::
            packBlocks limit ci title bs [b] (blockCost limit b) (pic + 1)) ∧
    (∀ (t s1 s2 s3 : String), s1.length = 500 → s2.length = 400 →
        s3.length = 100 →
        paginateFrom 800 0 [⟨t, [.text s1, .text s2, .text s3]⟩] =
          [⟨0, t, 1, [.text s1]⟩, ⟨0, t, 2, [.text s2, .text s3]⟩]) := by
  constructor
  · intro limit ci title b bs cur chars pic hne hover
    simp only [packBlocks]
    rw [if_pos ⟨hne, hover⟩]
  · intro t s1 s2 s3 h1 h2 h3
    simp [paginateFrom, packBlocks, blockCost, h1, h2, h3]

/-- C2 witness. -/
theorem packer_flushes_greedily_witness :
    paginateFrom 800 0
        [⟨"c", [.text (String.mk (List.replicate 500 'a')),
                .text (String.mk (List.replicate 400 'b')),
                .text (String.mk (List.replicate 100 'c'))]⟩] =
      [⟨0, "c", 1, [.text (String.mk (List.replicate 500 'a'))]⟩,
       ⟨0, "c", 2, [.text (String.mk (List.replicate 400 'b')),
                    .text (String.mk (List.replicate 100 'c'))]⟩] := by
  exact packer_flushes_greedily.2 "c" _ _ _
    (by rw [String.length, List.length_replicate])
    (by rw [String.length, List.length_replicate])
    (by rw [String.length, List.length_replicate])

theorem packBlocks_oversized_inv (limit ci : Nat) (title : String)
    (bs : List Block) :
    ∀ (cur : List Block) (chars pic : Nat),
    chars = (cur.map (blockCost limit)).sum →
    (∀ b ∈ cur, blockCost limit b > limit → cur = [b]) →
    ∀ p ∈ packBlocks limit ci title bs cur chars pic,
      ∀ b ∈ p.blocks, blockCost limit b > limit → p.blocks = [b] := by
  induction bs with
  | nil =>
      intro cur chars pic hsum hinv p hp b hb hover
      by_cases h : cur = [] <;> simp [packBlocks, h] at hp
      subst hp
      exact hinv b hb hover
  | cons blk bs ih =>
      intro cur chars pic hsum hinv p hp b hb hover
      simp only [packBlocks] at hp
      split at hp
      · rcases List.mem_cons.mp hp with h | h
        · subst h; exact hinv b hb hover
        · refine ih [blk] (blockCost limit blk) (pic + 1) (by simp) ?_ p h b hb hover
          intro b' hb' _
          simp only [List.mem_singleton] at hb'
          subst hb'
          rfl
      · rename_i hcond
        refine ih (cur ++ [blk]) (chars + blockCost limit blk) pic
          (by simp [hsum]) ?_ p hp b hb hover
        intro b' hb' hover'
        rcases Decidable.not_and_iff_or_not.mp hcond with hc | hc
        · have hcur : cur = [] := Decidable.of_not_not hc
          subst hcur
          simp only [List.nil_append, List.mem_singleton] at hb'
          subst hb'
          rfl
        · exfalso
          have hle : chars + blockCost limit blk ≤ limit := Nat.le_of_not_lt hc
          rcases List.mem_append.mp hb' with hmem | hmem
          · have : blockCost limit b' ≤ (cur.map (blockCost limit)).sum :=
              List.single_le_sum (fun x _ => Nat.zero_le x) _
                (List.mem_map_of_mem (blockCost limit) hmem)
            omega
          · simp only [List.mem_singleton] at hmem
            subst hmem
            omega

/-- C8: a block whose cost alone exceeds the budget is never split: any
emitted page containing such a block contains nothing else; and Scenario B:
budget 800, one chapter holding a single 900-character text block gives
exactly one page containing that one block. -/
theorem oversized_block_alone :
    (∀ (limit : Nat) (chs : List Chapter), ∀ p ∈ paginateFrom limit 0 chs,
        ∀ b ∈ p.blocks, blockCost limit b > limit → p.blocks = [b]) ∧
    (∀ (t s : String), s.length = 900 →
        paginateFrom 800 0 [⟨t, [.text s]⟩] = [⟨0, t, 1, [.text s]⟩]) := by
  constructor
  · intro limit chs p hp b hb hover
    obtain ⟨j, hj, hmem⟩ := paginateFrom_mem_decomp limit chs 0 p hp
    exact packBlocks_oversized_inv limit (0 + j) _ _ [] 0 1 rfl
      (by intro b' hb' _; simp at hb') p hmem b hb hover
  · intro t s hs
    simp [paginateFrom, packBlocks, blockCost, hs]

/-- C8 witness. -/
theorem oversized_block_alone_witness :
    paginateFrom 800 0 [⟨"c", [.text (String.mk (List.replicate 900 'a'))]⟩] =
      [⟨0, "c", 1, [.text (String.mk (List.replicate 900 'a'))]⟩] := by
  exact oversized_block_alone.2 "c" _ (by rw [String.length, List.length_replicate])

/-- C3: the character budget equals
`max(800, floor(3200 * 18 / max(10, font_size)))`, is monotonically
non-increasing as the font size increases (hence on `[12, 30]`), is never
below 800, and is exactly 3200 at font size 18. -/
theorem chars_per_page_spec :
    (∀ fs : Int, chars_per_page fs = max 800 (3200 * 18 / (max 10 fs).toNat)) ∧
    (∀ a b : Int, a ≤ b → chars_per_page b ≤ chars_per_page a) ∧
    (∀ fs : Int, 800 ≤ chars_per_page fs) ∧
    chars_per_page 18 = 3200 := by
  refine ⟨fun _ => rfl, ?_, fun fs => le_max_left _ _, by decide⟩
  intro a b hab
  have hm : max 10 a ≤ max 10 b := max_le_max le_rfl hab
  have h10 : (10 : Int) ≤ max 10 a := le_max_left _ _
  have h2 : (max 10 a).toNat ≤ (max 10 b).toNat := by omega
  have h3 : 0 < (max 10 a).toNat := by omega
  unfold chars_per_page
  exact max_le_max le_rfl (Nat.div_le_div_left h2 h3)

/-- C3 witness. -/
theorem chars_per_page_spec_witness :
    chars_per_page 30 ≤ chars_per_page 12 := by
  exact chars_per_page_spec.2.1 12 30 (by decide)

/-- C7 counterexample: at budget 2880 — produced by `chars_per_page 20` —
the code charges an image `int(2880 * 0.35) = 1007` characters, while
`floor(2880 * 0.35) = 1008`: the binary64 product `2880 * 0.35` is just
below 1008 and truncation loses the unit. -/
theorem image_cost_not_exact_floor :
    blockCost 2880 (.image "D" "a") = 1007 ∧ 2880 * 35 / 100 = 1008 ∧
      chars_per_page 20 = 2880 := by
  exact ⟨by decide, by decide, by decide⟩

/-- C7 (amended): a Text block is charged the character count of its text,
which is its trimmed text's count since extracted text is already
whitespace-stripped; an Image block is charged `int(budget * 0.35)`
evaluated in binary64 (`intMul35`), a weight independent of the image
payload and alt text; on every budget `chars_per_page` can produce this
equals `floor(budget * 0.35)` except at budgets 1440, 2880 and 5760, where
it is one character less. -/
theorem block_cost_spec :
    (∀ (limit : Nat) (t : String), pyStrip t = t →
        blockCost limit (.text t) = (pyStrip t).length) ∧
    (∀ (limit : Nat) (d1 a1 d2 a2 : String),
        blockCost limit (.image d1 a1) = intMul35 limit ∧
        blockCost limit (.image d1 a1) = blockCost limit (.image d2 a2)) ∧
    (∀ fs : Int,
        intMul35 (chars_per_page fs) =
          (if chars_per_page fs = 1440 ∨ chars_per_page fs = 2880 ∨
              chars_per_page fs = 5760
           then chars_per_page fs * 7 / 20 - 1
           else chars_per_page fs * 7 / 20)) := by
  refine ⟨?_, fun limit d1 a1 d2 a2 => ⟨rfl, rfl⟩, ?_⟩
  · intro limit t ht
    rw [ht]
    rfl
  · have key : ∀ d ∈ Finset.Icc 10 72,
        intMul35 (max 800 (3200 * 18 / d)) =
          (if max 800 (3200 * 18 / d) = 1440 ∨ max 800 (3200 * 18 / d) = 2880 ∨
              max 800 (3200 * 18 / d) = 5760
           then max 800 (3200 * 18 / d) * 7 / 20 - 1
           else max 800 (3200 * 18 / d) * 7 / 20) := by decide
    intro fs
    by_cases hd : (max 10 fs).toNat ≤ 72
    · have h10 : (10 : Int) ≤ max 10 fs := le_max_left _ _
      have hmem : (max 10 fs).toNat ∈ Finset.Icc 10 72 := by
        rw [Finset.mem_Icc]
        omega
      exact key _ hmem
    · have h72 : 3200 * 18 / (max 10 fs).toNat ≤ 3200 * 18 / 73 :=
        Nat.div_le_div_left (by omega) (by omega)
      have h800 : chars_per_page fs = 800 := by
        unfold chars_per_page
        omega
      rw [h800]
      decide

/-- C7 witness. -/
theorem block_cost_spec_witness :
    blockCost 800 (.text "abc") = (pyStrip "abc").length := by
  exact block_cost_spec.1 800 "abc" (by decide)

/-- C9 counterexample: in `EpubBook._load` (one of the two metadata
extraction sites) an absent creator entry leaves the author as
`"Desconocido"`, not the empty string. -/
theorem load_author_fallback_counterexample :
    epubLoadMetadata "book" [] [] = ("book", "Desconocido") ∧
      ("Desconocido" : String) ≠ "" :=
  ⟨rfl, by decide⟩

/-- C9 (amended): in `get_epub_metadata`, when the DC title/creator entry
lists are absent (empty) the extracted title falls back to the file stem
and the author to the empty string, and when present both are taken from
the first entries; in `EpubBook._load` the title behaves the same but an
absent author falls back to `"Desconocido"` instead of the empty string. -/
theorem metadata_extraction_fallback :
    (∀ stem : String, get_epub_metadata stem (some ([], [])) = (stem, "")) ∧
    (∀ (stem t a : String) (ts aus : List String),
        get_epub_metadata stem (some (t :: ts, a :: aus)) = (t, a)) ∧
    (∀ (stem t : String) (ts : List String),
        get_epub_metadata stem (some (t :: ts, [])) = (t, "")) ∧
    (∀ (stem a : String) (aus : List String),
        get_epub_metadata stem (some ([], a :: aus)) = (stem, a)) ∧
    (∀ stem : String, epubLoadMetadata stem [] [] = (stem, "Desconocido")) ∧
    (∀ (stem t a : String) (ts aus : List String),
        epubLoadMetadata stem (t :: ts) (a :: aus) = (t, a)) :=
  ⟨fun _ => rfl, fun _ _ _ _ _ => rfl, fun _ _ _ => rfl, fun _ _ _ => rfl,
   fun _ => rfl, fun _ _ _ _ _ => rfl⟩

theorem buildPages_current_page (book : Book) (hasFile : Bool)
    (load : LoadOutcome) (s : Settings) :
    (buildPages book hasFile load s).2.current_page = book.current_page := by
  unfold buildPages
  split
  · rfl
  · cases load <;> rfl

/-- C10 counterexample: on a cache hit `get_pages_for_book` returns the
cached pages without touching the book record: with one cached page under
id 1 and a stored record `total_pages = 5`, `current_page = 4 ≥ 0`, the
returned record still carries `total_pages = 5`, different from the
length 1 of the returned page list, and `current_page = 4` still indexes
past it. -/
theorem reading_position_reset_counterexample :
    (get_pages_for_book [(1, [⟨0, "t", 1, [.text "x"]⟩])]
        ⟨some 1, "T", "A", 4, 5⟩ true (.failure "m") ⟨18⟩).1.length = 1 ∧
    (get_pages_for_book [(1, [⟨0, "t", 1, [.text "x"]⟩])]
        ⟨some 1, "T", "A", 4, 5⟩ true (.failure "m") ⟨18⟩).2.1.total_pages = 5 ∧
    (get_pages_for_book [(1, [⟨0, "t", 1, [.text "x"]⟩])]
        ⟨some 1, "T", "A", 4, 5⟩ true (.failure "m") ⟨18⟩).2.1.current_page = 4 :=
  ⟨rfl, rfl, rfl⟩

/-- C10 (amended): when the call misses the page cache (the book has no id,
or its id has no cache entry), after `get_pages_for_book` returns, the
book's `total_pages` equals the length of the returned page list, and if
that list is non-empty and the stored `current_page` was non-negative,
`current_page` is strictly below `total_pages` (a stored position at or
past the end is reset to 0). On a cache hit the record is returned
untouched instead. -/
theorem reading_position_reset (cache : PageCache) (book : Book)
    (hasFile : Bool) (load : LoadOutcome) (s : Settings)
    (hmiss : ∀ i, book.id = some i → cacheLookup cache i = none)
    (hpos : 0 ≤ book.current_page) :
    (get_pages_for_book cache book hasFile load s).2.1.total_pages
        = ((get_pages_for_book cache book hasFile load s).1.length : Int) ∧
    (0 < (get_pages_for_book cache book hasFile load s).1.length →
      (get_pages_for_book cache book hasFile load s).2.1.current_page
        < (get_pages_for_book cache book hasFile load s).2.1.total_pages) := by
  have hcompute : get_pages_for_book cache book hasFile load s =
      computePages cache book hasFile load s := by
    unfold get_pages_for_book
    cases hid : book.id with
    | none => rfl
    | some i => simp [hmiss i hid]
  rw [hcompute]
  constructor
  · rfl
  · intro hlen
    have hcp := buildPages_current_page book hasFile load s
    have hsame : (computePages cache book hasFile load s).1 =
        (buildPages book hasFile load s).1 := rfl
    rw [hsame] at hlen
    show (if (buildPages book hasFile load s).2.current_page ≥
            ((buildPages book hasFile load s).1.length : Int) then 0
          else (buildPages book hasFile load s).2.current_page) <
        ((buildPages book hasFile load s).1.length : Int)
    split <;> omega

theorem find?_nomatch_append {α : Type} (p : α → Bool) (pre rest : List α)
    (h : ∀ x ∈ pre, p x = false) :
    (pre ++ rest).find? p = rest.find? p := by
  induction pre with
  | nil => rfl
  | cons a l ih =>
      simp only [List.cons_append, List.find?]
      rw [h a (List.mem_cons_self a l)]
      exact ih (fun x hx => h x (List.mem_cons_of_mem a hx))

theorem stripFragment_append_frag (s frag : PathStr) (h : '#' ∉ s) :
    stripFragment (s ++ '#' :: frag) = stripFragment s := by
  induction s with
  | nil => rfl
  | cons c cs ih =>
      have hcne : c ≠ '#' := fun hch => h (hch ▸ List.mem_cons_self c cs)
      have hcs : '#' ∉ cs := fun hm => h (List.mem_cons_of_mem c hm)
      simp only [List.cons_append, stripFragment, List.takeWhile_cons]
      rw [if_pos (decide_eq_true hcne), if_pos (decide_eq_true hcne)]
      exact congrArg (c :: ·) (ih hcs)

/-- C5: image-reference resolution in `EpubBook._load`: the fragment suffix
is stripped; a leading `./` is stripped; `../` segments are collapsed; when
the normalised path is not a key of the resource map, the fallback matches
by file basename against the keys in insertion order, first match winning,
and the image block carries that resource's content; and when resolution
fails entirely the image is silently dropped while the surrounding blocks
are extracted exactly as if the `img` element were absent. -/
theorem image_reference_resolution :
    (∀ (s frag : PathStr), '#' ∉ s →
        normalizeSrc (s ++ '#' :: frag) = normalizeSrc s) ∧
    (∀ s : PathStr, normalizeSrc ('.' :: '/' :: s) = normalizeSrc s) ∧
    (∀ s : PathStr,
        removeDotDotSlash ('.' :: '.' :: '/' :: s) = removeDotDotSlash s) ∧
    (∀ (pre post : ImageMap) (k : PathStr) (data : String) (src : PathStr)
        (alt : String),
        ((pre ++ (k, data) :: post).map Prod.fst).Nodup →
        lookupImage (pre ++ (k, data) :: post) (normalizeSrc src) = none →
        (∀ kv ∈ pre, basename kv.1 ≠ basename (normalizeSrc src)) →
        basename k = basename (normalizeSrc src) →
        elemBlocks (pre ++ (k, data) :: post) (.img (some src) alt) =
          [.image data alt]) ∧
    (∀ (images : ImageMap) (elems1 elems2 : List Elem) (src : PathStr)
        (alt : String),
        lookupImage images (resolveKey images (normalizeSrc src)) = none →
        docBlocks images (elems1 ++ .img (some src) alt :: elems2) =
          docBlocks images elems1 ++ docBlocks images elems2) := by
  refine ⟨?_, ?_, fun s => rfl, ?_, ?_⟩
  · intro s frag h
    unfold normalizeSrc
    rw [stripFragment_append_frag s frag h]
  · intro s
    rfl
  · intro pre post k data src alt hnodup hnone hpre hk
    have hfind1 : List.find? (fun kv : PathStr × String =>
        basename kv.1 == basename (normalizeSrc src)) ((k, data) :: post) =
          some (k, data) :=
      List.find?_cons_of_pos post (by simp [hk])
    have hpre1 : ∀ kv ∈ pre, (fun kv : PathStr × String =>
        basename kv.1 == basename (normalizeSrc src)) kv = false := by
      intro kv hkv
      simp only [beq_eq_false_iff_ne, ne_eq]
      exact hpre kv hkv
    have hkey : resolveKey (pre ++ (k, data) :: post) (normalizeSrc src) = k := by
      unfold resolveKey
      rw [if_neg (by rw [hnone]; simp)]
      rw [find?_nomatch_append _ pre _ hpre1, hfind1]
    have hknotin : ∀ kv ∈ pre, kv.1 ≠ k := by
      intro kv hkv heq
      rw [List.map_append, List.map_cons] at hnodup
      have hdisj := (List.nodup_append.mp hnodup).2.2
      exact hdisj (List.mem_map_of_mem Prod.fst hkv)
        (heq ▸ List.mem_cons_self k (post.map Prod.fst))
    have hfind2 : List.find? (fun kv : PathStr × String => kv.1 == k)
        ((k, data) :: post) = some (k, data) :=
      List.find?_cons_of_pos post (by simp)
    have hpre2 : ∀ kv ∈ pre,
        (fun kv : PathStr × String => kv.1 == k) kv = false := by
      intro kv hkv
      simp only [beq_eq_false_iff_ne, ne_eq]
      exact hknotin kv hkv
    have hlook : lookupImage (pre ++ (k, data) :: post) k = some data := by
      unfold lookupImage
      rw [find?_nomatch_append _ pre _ hpre2, hfind2]
    show (match lookupImage (pre ++ (k, data) :: post)
        (resolveKey (pre ++ (k, data) :: post) (normalizeSrc src)) with
      | some data => [Block.image data alt]
      | none => []) = [.image data alt]
    rw [hkey, hlook]
  · intro images elems1 elems2 src alt hnone
    have hdrop : elemBlocks images (.img (some src) alt) = [] := by
      show (match lookupImage images (resolveKey images (normalizeSrc src)) with
        | some data => [Block.image data alt]
        | none => []) = []
      rw [hnone]
    simp [docBlocks, hdrop]

/-- C5 witness. -/
theorem image_reference_resolution_witness :
    elemBlocks [("x/other.png".toList, "O"), ("dir/pic.png".toList, "D")]
        (.img (some "./sub/../pic.png#f".toList) "alt") =
      [.image "D" "alt"] := by
  exact image_reference_resolution.2.2.2.1 [("x/other.png".toList, "O")] []
    "dir/pic.png".toList "D" "./sub/../pic.png#f".toList "alt"
    (by decide) (by decide) (by decide) (by decide)

/-- C6 counterexample: a body holding `<h2>T</h2><p>a</p><p>b</p>` yields a
chapter whose block list also contains the heading's own text block first:
`[Text "T", Text "a", Text "b"]`, not `[Text "a", Text "b"]` as claimed —
the extraction loop emits text blocks for `h1`/`h2`/`h3` elements too. -/
theorem heading_scenario_counterexample :
    extractChapters "BOOK" []
        [some [.tagText "h2" "T", .tagText "p" "a", .tagText "p" "b"]] ≠
      [⟨"T", [.text "a", .text "b"]⟩] ∧
    extractChapters "BOOK" []
        [some [.tagText "h2" "T", .tagText "p" "a", .tagText "p" "b"]] =
      [⟨"T", [.text "T", .text "a", .text "b"]⟩] :=
  ⟨by decide, by decide⟩

/-- C6 (amended): a document whose body holds an `<h2>` heading (with
non-empty text) followed by two non-empty paragraphs yields exactly one
Chapter whose title is the heading's text and whose blocks are
`[Text(h2), Text(p1), Text(p2)]` in document order — the heading also
contributes the first text block; the title comes from the first heading
of levels 1–3, falling back to the book title when no heading exists. -/
theorem heading_paragraph_extraction :
    (∀ (bookTitle : String) (images : ImageMap) (t p1 p2 : String),
        t ≠ "" → p1 ≠ "" → p2 ≠ "" →
        extractChapters bookTitle images
            [some [.tagText "h2" t, .tagText "p" p1, .tagText "p" p2]] =
          [⟨t, [.text t, .text p1, .text p2]⟩]) ∧
    (∀ (bookTitle : String) (images : ImageMap) (p1 : String), p1 ≠ "" →
        extractChapters bookTitle images [some [.tagText "p" p1]] =
          [⟨bookTitle, [.text p1]⟩]) := by
  constructor
  · intro bookTitle images t p1 p2 ht hp1 hp2
    simp [extractChapters, docBlocks, elemBlocks, headingText, ht, hp1, hp2]
  · intro bookTitle images p1 hp1
    simp [extractChapters, docBlocks, elemBlocks, headingText, hp1]

/-- C6 amended-claim witness. -/
theorem heading_paragraph_extraction_witness :
    extractChapters "BOOK" [] [some [.tagText "h2" "T", .tagText "p" "a",
        .tagText "p" "b"]] = [⟨"T", [.text "T", .text "a", .text "b"]⟩] := by
  exact heading_paragraph_extraction.1 "BOOK" [] "T" "a" "b"
    (by decide) (by decide) (by decide)

/-- C10 witness. -/
theorem reading_position_reset_witness :
    (get_pages_for_book [] ⟨some 1, "T", "A", 4, 5⟩ false (.failure "m")
        ⟨18⟩).2.1.current_page <
      (get_pages_for_book [] ⟨some 1, "T", "A", 4, 5⟩ false (.failure "m")
        ⟨18⟩).2.1.total_pages := by
  exact (reading_position_reset [] ⟨some 1, "T", "A", 4, 5⟩ false (.failure "m")
    ⟨18⟩ (by intro i h; rfl) (by decide)).2 (by decide)

end Reader
